import Mathlib

/-!
# Verification of the NEON JSON structural indexer (`src/neon/neon_json.c`)

Shallow embedding of the Stage-1 structural indexer.  Byte buffers are
`List Nat` (each element a byte value), 64-bit machine words are `Nat`
with results reduced modulo `2^64` wherever the C code's `uint64_t`
arithmetic can wrap, and the `uint32_t` store of positions is modelled
by `% 2^32`.  Null pointers are modelled by explicit `Bool` flags.

Loops are embedded with explicit fuel so that every definition reduces
in the kernel; the fuel values (64 for the per-chunk bit loops, the
input length for the chunk loop) dominate the true iteration counts of
the corresponding C loops, which are bounded by the 64-bit width of the
masks resp. by `input_len / 64`.
-/

/-- All-ones 64-bit word, the value of `~0ULL` / `0xFFFFFFFFFFFFFFFF`. -/
def MASK64 : Nat := 2 ^ 64 - 1

/-- Fuel-indexed count-trailing-zeros; embeds `__builtin_ctzll` (the C code
only calls it on nonzero 64-bit values, for which fuel 64 is exact). -/
def ctzAux : Nat → Nat → Nat
  | 0, _ => 0
  | f + 1, x => if x % 2 = 1 then 0 else ctzAux f (x / 2) + 1

/-- Count trailing zeros of a 64-bit value. -/
def ctz64 (x : Nat) : Nat := ctzAux 64 x

/-- Fuel-indexed count of trailing one bits; embeds the scalar
`while (temp & 1) { count++; temp >>= 1; }` loop of
`find_odd_backslash_sequences`. -/
def ctoAux : Nat → Nat → Nat
  | 0, _ => 0
  | f + 1, x => if x % 2 = 1 then ctoAux f (x / 2) + 1 else 0

/-- Count trailing ones of a 64-bit value. -/
def cto64 (x : Nat) : Nat := ctoAux 64 x

/-- Fuel-indexed population count over the binary digits of `x`. -/
def popcountAux : Nat → Nat → Nat
  | 0, _ => 0
  | f + 1, x => x % 2 + popcountAux f (x / 2)

/-- Parity of a 64-bit word; embeds `__builtin_parityll`. -/
def parity64 (x : Nat) : Bool := popcountAux 64 x % 2 == 1

/-- Fuel-indexed carry-less multiplication (polynomial multiplication over
GF(2)); embeds the `vmull_p64` intrinsic.  `clmulAux f a b` processes the
low `f` bits of `b`, which is exact for the 64-bit operands used here. -/
def clmulAux : Nat → Nat → Nat → Nat
  | 0, _, _ => 0
  | f + 1, a, b =>
    if b = 0 then 0
    else (if b % 2 = 1 then a else 0) ^^^ 2 * clmulAux f a (b / 2)

/-- Embeds `prefix_xor` (`neon_json.c` lines 143-150): carry-less multiply of
the mask with the all-ones constant; the low 64 bits of the 128-bit product
are the cumulative XOR of the input bits. -/
def pxor (mask : Nat) : Nat := clmulAux 64 mask MASK64 &&& MASK64

/-- The six non-quote structural characters `{ } [ ] : ,`
(byte values 123, 125, 91, 93, 58, 44). -/
def isSix (b : Nat) : Bool :=
  b == 123 || b == 125 || b == 91 || b == 93 || b == 58 || b == 44

/-- A byte contributing to the `structural` mask of `classify_chunk_64`:
the OR of the seven per-character comparisons `{ } [ ] : , "`. -/
def is_structural_byte (b : Nat) : Bool := isSix b || b == 34

/-- Bit `k` of the result is `p` applied to the `k`-th list element
(LSB = earliest byte), the semantics of the NEON compare-and-movemask
sequence used by `classify_chunk_64`. -/
def maskOfList (p : Nat → Bool) : List Nat → Nat
  | [] => 0
  | b :: rest => (if p b then 1 else 0) + 2 * maskOfList p rest

/-- Embeds `classify_chunk_64` (`neon_json.c` lines 81-132): the
`(structural, quote, backslash)` masks of one 64-byte chunk. -/
def classify_chunk_64 (chunk : List Nat) : Nat × Nat × Nat :=
  (maskOfList is_structural_byte chunk,
   maskOfList (fun b => b == 34) chunk,
   maskOfList (fun b => b == 92) chunk)

/-- Embeds the `while (seq)` run-enumeration loop of
`find_odd_backslash_sequences` (lines 176-190).  Each iteration finds the
lowest backslash run, marks its final backslash if the run length is odd,
and clears the top bit of that run via `seq &= seq - (1 << (pos+count-1))`;
fuel 64 dominates the iteration count for 64-bit masks. -/
def odd_ends_loop : Nat → Nat → Nat → Nat
  | 0, _, acc => acc
  | f + 1, seq, acc =>
    if seq = 0 then acc
    else
      let pos := ctz64 seq
      let count := cto64 (seq >>> pos)
      let acc' := if count % 2 = 1 then acc ||| (1 <<< (pos + count - 1)) else acc
      odd_ends_loop f (seq &&& (seq - (1 <<< (pos + count - 1)))) acc'

/-- Embeds `find_odd_backslash_sequences` (`neon_json.c` lines 161-192).
The `starts` computation is kept (as in the source) although the scalar
loop never reads it. -/
def find_odd_backslash_sequences (backslashes : Nat) : Nat :=
  if backslashes = 0 then 0
  else
    let _starts := backslashes &&& (MASK64 ^^^ ((backslashes <<< 1) &&& MASK64))
    odd_ends_loop 64 backslashes 0

/-- Embeds lines 222-231 of `neon_json_find_structural`: compute the
in-string mask from the unescaped-quote mask via `prefix_xor`, complement
it when the carry from the previous chunk says we start inside a string,
and produce the carry stored for the next chunk
(`prev_string_state = __builtin_parityll(unescaped_quotes)`). -/
def string_mask_step (unescaped_quotes : Nat) (prev_string_state : Bool) :
    Nat × Bool :=
  let sm := pxor unescaped_quotes
  let sm := if prev_string_state then MASK64 ^^^ sm else sm
  (sm, parity64 unescaped_quotes)

/-- Embeds the bit-extraction loop (lines 237-243): emit
`(positions[count], characters[count]) = ((uint32_t)(i + pos), input[i + pos])`
for each set bit of `filtered`, lowest first, while `count < max_output`.
Fuel 64 dominates the population count of a 64-bit mask. -/
def extractBits (input : List Nat) (base : Nat) :
    Nat → Nat → Nat → Nat → List (Nat × Nat)
  | 0, _, _, _ => []
  | f + 1, filtered, count, max_output =>
    if filtered ≠ 0 ∧ count < max_output then
      let pos := ctz64 filtered
      ((base + pos) % 2 ^ 32, input.getD (base + pos) 0) ::
        extractBits input base f (filtered &&& (filtered - 1)) (count + 1)
          max_output
    else []

/-- Embeds the mask pipeline of one iteration of the chunk loop
(lines 214-234): classify the 64-byte chunk at offset `i`, run the escape
analysis, compute the string mask with the incoming carry, and return the
`filtered` mask together with the carry stored for the next chunk. -/
def chunkFiltered (input : List Nat) (i : Nat) (prev : Bool) : Nat × Bool :=
  let chunk := (input.drop i).take 64
  let m := classify_chunk_64 chunk
  let structural := m.1
  let quotes := m.2.1
  let backslashes := m.2.2
  let odd_bs := find_odd_backslash_sequences backslashes
  let escaped_quotes := quotes &&& ((odd_bs <<< 1) &&& MASK64)
  let unescaped_quotes := quotes &&& (MASK64 ^^^ escaped_quotes)
  let s := string_mask_step unescaped_quotes prev
  ((structural &&& (MASK64 ^^^ s.1)) ||| unescaped_quotes, s.2)

/-- Embeds the 64-byte chunk loop of `neon_json_find_structural`
(lines 211-244).  Returns the emitted `(position, character)` pairs together
with the final values of `i`, `count` and `prev_string_state`.  The fuel is
instantiated with `input.length` at the call site, which dominates the
number of loop iterations (`input.length / 64`). -/
def simdLoop (input : List Nat) :
    Nat → Nat → Nat → Nat → Bool → List (Nat × Nat) × Nat × Nat × Bool
  | 0, i, count, _, prev => ([], i, count, prev)
  | f + 1, i, count, max_output, prev =>
    if i + 64 ≤ input.length ∧ count < max_output then
      let fc := chunkFiltered input i prev
      let pairs := extractBits input i 64 fc.1 count max_output
      let rest := simdLoop input f (i + 64) (count + pairs.length) max_output fc.2
      (pairs ++ rest.1, rest.2)
    else ([], i, count, prev)

/-- Embeds the scalar tail loop (lines 246-272): one byte at a time from the
remaining suffix, tracking `in_string` and `prev_backslash`. -/
def tailLoop : List Nat → Nat → Nat → Nat → Bool → Bool → List (Nat × Nat)
  | [], _, _, _, _, _ => []
  | ch :: rest, i, count, max_output, in_string, prev_backslash =>
    if count < max_output then
      if ch = 92 ∧ prev_backslash = false then
        tailLoop rest (i + 1) count max_output in_string true
      else if ch = 34 ∧ prev_backslash = false then
        (i % 2 ^ 32, ch) ::
          tailLoop rest (i + 1) (count + 1) max_output (!in_string) false
      else if in_string = false ∧ prev_backslash = false ∧ isSix ch = true then
        (i % 2 ^ 32, ch) ::
          tailLoop rest (i + 1) (count + 1) max_output in_string false
      else tailLoop rest (i + 1) count max_output in_string false
    else []

/-- Embeds `neon_json_find_structural` (`neon_json.c` lines 194-275).
The four `Bool` flags model nullness of the `ctx`, `input`, `positions` and
`characters` pointers.  The result is the returned `int64_t` together with
the prefixes of the `positions` and `characters` arrays that were written. -/
def neon_json_find_structural (ctx_null input_null positions_null
    characters_null : Bool) (input : List Nat) (max_output : Nat) :
    Int × List Nat × List Nat :=
  if ctx_null || input_null || (input.length == 0) || positions_null ||
      characters_null then
    (-1, [], [])
  else
    let r := simdLoop input input.length 0 0 max_output false
    let tail := tailLoop (input.drop r.2.1) r.2.1 r.2.2.1 max_output r.2.2.2 false
    let all := r.1 ++ tail
    ((all.length : Int), all.map Prod.fst, all.map Prod.snd)

/-- The 256-entry classification lookup table of `neon_json_classify`
(`neon_json.c` lines 285-299), transcribed row by row. -/
def LOOKUP : List Nat :=
  [9, 9, 9, 9, 9, 9, 9, 9, 9, 0, 0, 9, 9, 0, 9, 9,
   9, 9, 9, 9, 9, 9, 9, 9, 9, 9, 9, 9, 9, 9, 9, 9,
   0, 9, 5, 9, 9, 9, 9, 9, 9, 9, 9, 9, 7, 9, 9, 9,
   9, 9, 9, 9, 9, 9, 9, 9, 9, 9, 6, 9, 9, 9, 9, 9,
   9, 9, 9, 9, 9, 9, 9, 9, 9, 9, 9, 9, 9, 9, 9, 9,
   9, 9, 9, 9, 9, 9, 9, 9, 9, 9, 9, 3, 8, 4, 9, 9,
   9, 9, 9, 9, 9, 9, 9, 9, 9, 9, 9, 9, 9, 9, 9, 9,
   9, 9, 9, 9, 9, 9, 9, 9, 9, 9, 9, 1, 9, 2, 9, 9,
   9, 9, 9, 9, 9, 9, 9, 9, 9, 9, 9, 9, 9, 9, 9, 9,
   9, 9, 9, 9, 9, 9, 9, 9, 9, 9, 9, 9, 9, 9, 9, 9,
   9, 9, 9, 9, 9, 9, 9, 9, 9, 9, 9, 9, 9, 9, 9, 9,
   9, 9, 9, 9, 9, 9, 9, 9, 9, 9, 9, 9, 9, 9, 9, 9,
   9, 9, 9, 9, 9, 9, 9, 9, 9, 9, 9, 9, 9, 9, 9, 9,
   9, 9, 9, 9, 9, 9, 9, 9, 9, 9, 9, 9, 9, 9, 9, 9,
   9, 9, 9, 9, 9, 9, 9, 9, 9, 9, 9, 9, 9, 9, 9, 9,
   9, 9, 9, 9, 9, 9, 9, 9, 9, 9, 9, 9, 9, 9, 9, 9]

/-- Embeds `neon_json_classify` (`neon_json.c` lines 277-313): per-byte
table lookup.  The two `Bool` flags model nullness of the `input` and
`output` pointers. -/
def neon_json_classify (input_null output_null : Bool) (input : List Nat) :
    Int × List Nat :=
  if input_null || output_null || (input.length == 0) then (-1, [])
  else (0, input.map (fun b => LOOKUP.getD b 9))

/-! ## Specification-side definitions

These follow the wording of the specification (§3 invariants, §6 contract)
and are used to state the refinement claims; they are deliberately
independent of the bit-parallel code path above. -/

/-- Number of consecutive backslash bytes immediately preceding position
`k` of the input. -/
def backslashRunBefore (input : List Nat) : Nat → Nat
  | 0 => 0
  | k + 1 => if input.getD k 0 == 92 then backslashRunBefore input k + 1 else 0

/-- Spec-side escape predicate: byte `k` is escaped iff it is preceded by an
odd number of consecutive backslashes. -/
def spec_escaped (input : List Nat) (k : Nat) : Bool :=
  backslashRunBefore input k % 2 == 1

/-- Spec-side string-region predicate for non-quote positions: `p` lies in a
string region iff an odd number of unescaped quotes occurs strictly before
`p` (half-open convention: delimiter quotes are outside-string). -/
def spec_in_string (input : List Nat) : Nat → Bool
  | 0 => false
  | p + 1 =>
    xor (spec_in_string input p)
      (input.getD p 0 == 34 && !spec_escaped input p)

/-- The emitted set demanded by the specification invariant: offsets of the
six structural characters outside string regions, plus all unescaped
quotes. -/
def spec_emitted (input : List Nat) : List Nat :=
  (List.range input.length).filter fun p =>
    (isSix (input.getD p 0) && !spec_in_string input p) ||
    (input.getD p 0 == 34 && !spec_escaped input p)

/-- Byte offsets of the six structural characters `{ } [ ] : ,`, the
expected output on quote-free, backslash-free inputs. -/
def spec_six_positions (input : List Nat) : List Nat :=
  (List.range input.length).filter fun p => isSix (input.getD p 0)

/-- The classification-code contract of `classify` (spec §6): 0 for
whitespace, 1-8 for the structural alphabet, 9 otherwise. -/
def contract_code (b : Nat) : Nat :=
  if b = 32 ∨ b = 9 ∨ b = 10 ∨ b = 13 then 0
  else if b = 123 then 1
  else if b = 125 then 2
  else if b = 91 then 3
  else if b = 93 then 4
  else if b = 34 then 5
  else if b = 58 then 6
  else if b = 44 then 7
  else if b = 92 then 8
  else 9

/-! ## Claim C1 -/

set_option maxRecDepth 10000 in
/-- C1: the claim that the emitted set equals
`{p : sixChar p ∧ ¬in_string p} ∪ {p : quote p ∧ ¬escaped p}` fails on the
code: on the 64-byte input `'a'*62 ++ "\\\""` the quote at offset 63 is
escaped and outside any string, so the specified set is empty, yet the SIMD
path emits it (the `structural` mask contains all quotes and the filter
`(structural & ~in_string) | unescaped_quotes` only removes in-string
positions, never escaped-but-outside-string quotes). -/
theorem claims_C1 :
    neon_json_find_structural false false false false
      (List.replicate 62 97 ++ [92, 34]) 100 = (1, [63], [34]) ∧
    spec_emitted (List.replicate 62 97 ++ [92, 34]) = [] := by
  decide

/-! ## Claim C2 -/

set_option maxRecDepth 10000 in
/-- C2: the claim that escape analysis handles backslash runs crossing a
64-byte chunk boundary via a backslash carry fails on the code: no backslash
state crosses chunk boundaries in `neon_json_find_structural`.  On the
128-byte input `'a'*63 ++ "\\" ++ "\"" ++ 'a'*63` the quote at offset 64 is
preceded by an odd backslash run (the single backslash at offset 63), so the
spec classifies it escaped, yet the code emits it as an unescaped quote:
the odd-run end bit at position 63 of chunk 0 is shifted out by
`odd_bs << 1` and chunk 1 starts with no escape information. -/
theorem claims_C2 :
    neon_json_find_structural false false false false
      (List.replicate 63 97 ++ [92, 34] ++ List.replicate 63 97) 200 =
      (1, [64], [34]) ∧
    spec_escaped (List.replicate 63 97 ++ [92, 34] ++ List.replicate 63 97) 64 =
      true := by
  decide

/-! ## Claim C3 -/

set_option maxRecDepth 10000 in
/-- C3: the first half of the claim holds by construction (the in-string
mask is the prefix-XOR of the unescaped-quote mask, complemented exactly
when the incoming carry is 1), but the outgoing carry is wrong: the code
stores `parity(unescaped_quotes)` alone, not
`in_string_carry XOR parity(unescaped_quotes)`.  Witnessed by a chunk with
no unescaped quotes entered with carry 1: the mask is (correctly) all-ones,
but the outgoing carry is 0 where the claimed formula gives
`1 XOR 0 = 1`.  Consequently on the 192-byte input `'"' ++ 'a'*129 ++ ',' ++
'a'*59 ++ '"' ++ ' '` the comma at offset 130 — strictly inside the string —
is emitted. -/
theorem claims_C3 :
    string_mask_step 0 true = (MASK64, false) ∧
    Bool.xor true (parity64 0) = true ∧
    neon_json_find_structural false false false false
      ([34] ++ List.replicate 129 97 ++ [44] ++ List.replicate 59 97 ++
        [34] ++ [32]) 300 =
      (3, [0, 130, 190], [34, 44, 34]) := by
  decide

/-! ## Claim C4 -/

set_option maxRecDepth 10000 in
/-- C4: shim-byte insertion invariance fails on the code.  Base input
(128 bytes): `'"' ++ 'a'*61 ++ "\\" ++ '"' ++ 'a'*36 ++ '"' ++ 'a'*27`; the
escaped quote at offset 63 lies inside the string and is (correctly) not
emitted, so the characters are `["\"", "\""]`.  Inserting the shim byte
`' '` at position 0 — outside any string — moves the backslash to offset 63
and the escaped quote to offset 64; the missing cross-chunk backslash carry
makes the code emit that quote, so the emitted characters change to
`["\"", "\"", "\""]` instead of only shifting positions. -/
theorem claims_C4 :
    neon_json_find_structural false false false false
      ([34] ++ List.replicate 61 97 ++ [92, 34] ++ List.replicate 36 97 ++
        [34] ++ List.replicate 27 97) 300 = (2, [0, 100], [34, 34]) ∧
    neon_json_find_structural false false false false
      ([32, 34] ++ List.replicate 61 97 ++ [92, 34] ++ List.replicate 36 97 ++
        [34] ++ List.replicate 27 97) 300 = (3, [1, 64, 101], [34, 34, 34]) := by
  decide

/-! ## Bit-level lemmas -/

theorem maskOfList_testBit (p : Nat → Bool) :
    ∀ (l : List Nat) (k : Nat),
      (maskOfList p l).testBit k = (p (l.getD k 0) && decide (k < l.length))
  | [], k => by simp [maskOfList]
  | b :: rest, 0 => by
    cases hp : p b <;>
      simp [maskOfList, hp, Nat.testBit_zero, Nat.add_mul_mod_self_left]
  | b :: rest, k + 1 => by
    have hdiv : ((if p b then 1 else 0) + 2 * maskOfList p rest) / 2 =
        maskOfList p rest := by
      cases p b
      · simp
      · simp
        omega
    rw [maskOfList, Nat.testBit_add_one, hdiv, maskOfList_testBit p rest k]
    simp

theorem maskOfList_lt (p : Nat → Bool) :
    ∀ l : List Nat, maskOfList p l < 2 ^ l.length
  | [] => by simp [maskOfList]
  | b :: rest => by
    have ih := maskOfList_lt p rest
    have hb : (if p b then 1 else 0) ≤ 1 := by cases p b <;> simp
    simp only [maskOfList, List.length_cons, Nat.pow_succ]
    omega

theorem maskOfList_eq_zero (p : Nat → Bool) :
    ∀ l : List Nat, (∀ b ∈ l, p b = false) → maskOfList p l = 0
  | [], _ => rfl
  | b :: rest, h => by
    have hb : p b = false := h b (List.mem_cons_self b rest)
    have ih := maskOfList_eq_zero p rest fun x hx => h x (List.mem_cons_of_mem b hx)
    simp [maskOfList, hb, ih]

theorem ctzAux_testBit :
    ∀ (f x : Nat), x ≠ 0 → x < 2 ^ f → x.testBit (ctzAux f x) = true
  | 0, x, hx, hlt => by simp at hlt; omega
  | f + 1, x, hx, hlt => by
    by_cases h : x % 2 = 1
    · simp [ctzAux, h]
    · have hx2 : x / 2 ≠ 0 := by omega
      have hlt2 : x / 2 < 2 ^ f := by
        rw [Nat.pow_succ] at hlt; omega
      rw [ctzAux, if_neg h, Nat.testBit_add_one]
      exact ctzAux_testBit f (x / 2) hx2 hlt2

theorem ctzAux_min :
    ∀ (f x : Nat), x ≠ 0 → x < 2 ^ f →
      ∀ j, j < ctzAux f x → x.testBit j = false
  | 0, x, hx, hlt, j, hj => by simp at hlt; omega
  | f + 1, x, hx, hlt, j, hj => by
    by_cases h : x % 2 = 1
    · rw [ctzAux, if_pos h] at hj; omega
    · rw [ctzAux, if_neg h] at hj
      match j with
      | 0 => simp [Nat.testBit_zero]; omega
      | j + 1 =>
        have hx2 : x / 2 ≠ 0 := by omega
        have hlt2 : x / 2 < 2 ^ f := by rw [Nat.pow_succ] at hlt; omega
        rw [Nat.testBit_add_one]
        exact ctzAux_min f (x / 2) hx2 hlt2 j (by omega)

theorem and_pred_testBit :
    ∀ (f x : Nat), x ≠ 0 → x < 2 ^ f →
      ∀ j, (x &&& (x - 1)).testBit j =
        (x.testBit j && !(decide (j = ctzAux f x)))
  | 0, x, hx, hlt, j => by simp at hlt; omega
  | f + 1, x, hx, hlt, j => by
    by_cases h : x % 2 = 1
    · rw [ctzAux, if_pos h]
      match j with
      | 0 =>
        have h1 : (x - 1) % 2 = 0 := by omega
        simp [Nat.testBit_and, Nat.testBit_zero, h1]
      | j + 1 =>
        have hdiv : (x - 1) / 2 = x / 2 := by omega
        rw [Nat.testBit_and, Nat.testBit_add_one, Nat.testBit_add_one, hdiv,
          ← Nat.testBit_add_one]
        cases x.testBit (j + 1) <;> simp
    · rw [ctzAux, if_neg h]
      have hx2 : x / 2 ≠ 0 := by omega
      have hlt2 : x / 2 < 2 ^ f := by rw [Nat.pow_succ] at hlt; omega
      match j with
      | 0 =>
        simp [Nat.testBit_and, Nat.testBit_zero, h]
      | j + 1 =>
        have hdiv : (x - 1) / 2 = x / 2 - 1 := by omega
        rw [Nat.testBit_and, Nat.testBit_add_one, Nat.testBit_add_one, hdiv,
          ← Nat.testBit_and, and_pred_testBit f (x / 2) hx2 hlt2 j]
        simp

theorem ctz64_testBit {x : Nat} (hx : x ≠ 0) (hlt : x < 2 ^ 64) :
    x.testBit (ctz64 x) = true :=
  ctzAux_testBit 64 x hx hlt

theorem ctz64_min {x : Nat} (hx : x ≠ 0) (hlt : x < 2 ^ 64) :
    ∀ j, j < ctz64 x → x.testBit j = false :=
  ctzAux_min 64 x hx hlt

theorem ctz64_lt {x : Nat} (hx : x ≠ 0) (hlt : x < 2 ^ 64) : ctz64 x < 64 := by
  by_contra hge
  have h64 : x < 2 ^ ctz64 x := by
    calc x < 2 ^ 64 := hlt
    _ ≤ 2 ^ ctz64 x := Nat.pow_le_pow_right (by omega) (by omega)
  have := Nat.testBit_lt_two_pow h64
  rw [ctz64_testBit hx hlt] at this
  exact Bool.true_eq_false.mp this

theorem and_pred_testBit64 {x : Nat} (hx : x ≠ 0) (hlt : x < 2 ^ 64) (j : Nat) :
    (x &&& (x - 1)).testBit j = (x.testBit j && !(decide (j = ctz64 x))) :=
  and_pred_testBit 64 x hx hlt j

set_option maxRecDepth 10000 in
theorem pxor_zero : pxor 0 = 0 := by decide

theorem parity64_zero : parity64 0 = false := by decide

theorem find_odd_zero : find_odd_backslash_sequences 0 = 0 := rfl

/-! ## Characterization of the bit-extraction loop -/

theorem filter_range_cons :
    ∀ (n : Nat) (p : Nat → Bool) (k : Nat), k < n → p k = true →
      (∀ j, j < k → p j = false) →
      (List.range n).filter p =
        k :: (List.range n).filter (fun j => p j && !(decide (j = k)))
  | 0, p, k, hk, _, _ => by omega
  | n + 1, p, k, hk, hpk, hmin => by
    rw [List.range_succ, List.filter_append, List.filter_append]
    by_cases hkn : k = n
    · subst hkn
      have h1 : (List.range k).filter p = [] := by
        rw [List.filter_eq_nil_iff]
        intro a ha
        simp [hmin a (List.mem_range.mp ha)]
      have h2 : (List.range k).filter (fun j => p j && !(decide (j = k))) = [] := by
        rw [List.filter_eq_nil_iff]
        intro a ha
        simp [hmin a (List.mem_range.mp ha)]
      simp [h1, h2, hpk]
    · have hk' : k < n := by omega
      have ih := filter_range_cons n p k hk' hpk hmin
      rw [ih]
      have hsing : [n].filter (fun j => p j && !(decide (j = k))) = [n].filter p := by
        simp only [List.filter]
        have : (decide (n = k)) = false := decide_eq_false (by omega)
        cases hpn : p n <;> simp [this]
      rw [hsing]
      simp

theorem extract_eq (input : List Nat) (base : Nat) :
    ∀ (f filt count max_output : Nat), filt < 2 ^ 64 →
      (∀ j, j < 64 - f → filt.testBit j = false) →
      extractBits input base f filt count max_output =
        (((List.range 64).filter (filt.testBit ·)).take
            (max_output - count)).map
          (fun k => ((base + k) % 2 ^ 32, input.getD (base + k) 0))
  | 0, filt, count, max_output, hlt, hlow => by
    have hz : filt = 0 := by
      apply Nat.eq_of_testBit_eq
      intro i
      rw [Nat.zero_testBit]
      by_cases hi : i < 64
      · exact hlow i (by omega)
      · exact Nat.testBit_lt_two_pow
          (lt_of_lt_of_le hlt (Nat.pow_le_pow_right (by omega) (by omega)))
    subst hz
    simp [extractBits, List.filter_eq_nil_iff]
  | f + 1, filt, count, max_output, hlt, hlow => by
    by_cases hne : filt = 0
    · subst hne
      simp [extractBits, List.filter_eq_nil_iff]
    by_cases hcnt : count < max_output
    · have hc64 : ctz64 filt < 64 := ctz64_lt hne hlt
      have hcbit : filt.testBit (ctz64 filt) = true := ctz64_testBit hne hlt
      have hcmin := ctz64_min hne hlt
      have hcge : 64 - (f + 1) ≤ ctz64 filt := by
        by_contra hcon
        have := hlow (ctz64 filt) (by omega)
        rw [hcbit] at this
        exact Bool.true_eq_false.mp this
      rw [extractBits, if_pos ⟨hne, hcnt⟩]
      have hfc := filter_range_cons 64 (filt.testBit ·) (ctz64 filt) hc64 hcbit hcmin
      have hfun : (fun j => filt.testBit j && !(decide (j = ctz64 filt))) =
          ((filt &&& (filt - 1)).testBit ·) :=
        funext fun j => (and_pred_testBit64 hne hlt j).symm
      rw [hfc, hfun] at *
      obtain ⟨d, hd⟩ : ∃ d, max_output - count = d + 1 :=
        ⟨max_output - count - 1, by omega⟩
      rw [hd, List.take_succ_cons, List.map_cons]
      have hlt' : filt &&& (filt - 1) < 2 ^ 64 :=
        lt_of_le_of_lt Nat.and_le_left hlt
      have hlow' : ∀ j, j < 64 - f → (filt &&& (filt - 1)).testBit j = false := by
        intro j hj
        rw [and_pred_testBit64 hne hlt j]
        by_cases hjc : j = ctz64 filt
        · simp [hjc]
        · have hjlt : j < ctz64 filt := by omega
          simp [hcmin j hjlt]
      have ih := extract_eq input base f (filt &&& (filt - 1)) (count + 1)
        max_output hlt' hlow'
      rw [ih]
      have hdd : max_output - (count + 1) = d := by omega
      rw [hdd]
    · rw [extractBits, if_neg (by tauto)]
      have : max_output - count = 0 := by omega
      simp [this]

/-! ## Capacity coherence: a smaller output budget yields a prefix -/

theorem extract_take (input : List Nat) (base : Nat) :
    ∀ (f filt c₁ m₁ c₂ m₂ : Nat), m₁ - c₁ ≤ m₂ - c₂ →
      extractBits input base f filt c₁ m₁ =
        (extractBits input base f filt c₂ m₂).take (m₁ - c₁)
  | 0, filt, c₁, m₁, c₂, m₂, h => by simp [extractBits]
  | f + 1, filt, c₁, m₁, c₂, m₂, h => by
    by_cases hne : filt = 0
    · simp [extractBits, hne]
    by_cases h1 : c₁ < m₁
    · have h2 : c₂ < m₂ := by omega
      rw [extractBits, if_pos ⟨hne, h1⟩, extractBits, if_pos ⟨hne, h2⟩]
      obtain ⟨d, hd⟩ : ∃ d, m₁ - c₁ = d + 1 := ⟨m₁ - c₁ - 1, by omega⟩
      rw [hd, List.take_succ_cons]
      have ih := extract_take input base f (filt &&& (filt - 1)) (c₁ + 1) m₁
        (c₂ + 1) m₂ (by omega)
      rw [ih]
      have : m₁ - (c₁ + 1) = d := by omega
      rw [this]
    · rw [extractBits, if_neg (by tauto)]
      have : m₁ - c₁ = 0 := by omega
      simp [this]

theorem extract_len_le (input : List Nat) (base : Nat) :
    ∀ (f filt c m : Nat), (extractBits input base f filt c m).length ≤ f
  | 0, _, _, _ => by simp [extractBits]
  | f + 1, filt, c, m => by
    rw [extractBits]
    split
    · simpa using Nat.succ_le_succ
        (extract_len_le input base f (filt &&& (filt - 1)) (c + 1) m)
    · simp

theorem tail_stop :
    ∀ (rem : List Nat) (i c m : Nat) (s bs : Bool), m ≤ c →
      tailLoop rem i c m s bs = []
  | [], _, _, _, _, _, _ => rfl
  | ch :: rest, i, c, m, s, bs, h => by
    rw [tailLoop, if_neg (by omega)]

theorem tail_take :
    ∀ (rem : List Nat) (i c₁ m₁ c₂ m₂ : Nat) (s bs : Bool), m₁ - c₁ ≤ m₂ - c₂ →
      tailLoop rem i c₁ m₁ s bs = (tailLoop rem i c₂ m₂ s bs).take (m₁ - c₁)
  | [], _, _, _, _, _, _, _, _ => by simp [tailLoop]
  | ch :: rest, i, c₁, m₁, c₂, m₂, s, bs, h => by
    by_cases h1 : c₁ < m₁
    · have h2 : c₂ < m₂ := by omega
      rw [tailLoop, if_pos h1, tailLoop, if_pos h2]
      obtain ⟨d, hd⟩ : ∃ d, m₁ - c₁ = d + 1 := ⟨m₁ - c₁ - 1, by omega⟩
      by_cases hb1 : ch = 92 ∧ bs = false
      · rw [if_pos hb1, if_pos hb1]
        exact tail_take rest (i + 1) c₁ m₁ c₂ m₂ s true h
      rw [if_neg hb1, if_neg hb1]
      by_cases hb2 : ch = 34 ∧ bs = false
      · rw [if_pos hb2, if_pos hb2, hd, List.take_succ_cons]
        have ih := tail_take rest (i + 1) (c₁ + 1) m₁ (c₂ + 1) m₂ (!s) false
          (by omega)
        rw [ih]
        have : m₁ - (c₁ + 1) = d := by omega
        rw [this]
      rw [if_neg hb2, if_neg hb2]
      by_cases hb3 : s = false ∧ bs = false ∧ isSix ch = true
      · rw [if_pos hb3, if_pos hb3, hd, List.take_succ_cons]
        have ih := tail_take rest (i + 1) (c₁ + 1) m₁ (c₂ + 1) m₂ s false
          (by omega)
        rw [ih]
        have : m₁ - (c₁ + 1) = d := by omega
        rw [this]
      · rw [if_neg hb3, if_neg hb3]
        exact tail_take rest (i + 1) c₁ m₁ c₂ m₂ s false h
    · rw [tailLoop, if_neg h1]
      have : m₁ - c₁ = 0 := by omega
      simp [this]

theorem simd_stop (input : List Nat) :
    ∀ (f i c m : Nat) (prev : Bool), m ≤ c →
      simdLoop input f i c m prev = ([], i, c, prev)
  | 0, _, _, _, _, _ => rfl
  | f + 1, i, c, m, prev, h => by
    rw [simdLoop, if_neg (fun hc => absurd hc.2 (by omega))]

theorem simd_count (input : List Nat) :
    ∀ (f i c m : Nat) (prev : Bool),
      (simdLoop input f i c m prev).2.2.1 =
        c + (simdLoop input f i c m prev).1.length
  | 0, i, c, m, prev => by simp [simdLoop]
  | f + 1, i, c, m, prev => by
    rw [simdLoop]
    split
    · simp only []
      rw [simd_count input f]
      simp [List.length_append]
      omega
    · simp

theorem simd_take_strong (input : List Nat) :
    ∀ (f i : Nat) (prev : Bool) (c₁ m₁ c₂ m₂ : Nat), m₁ - c₁ ≤ m₂ - c₂ →
      (simdLoop input f i c₁ m₁ prev).1 =
        ((simdLoop input f i c₂ m₂ prev).1).take (m₁ - c₁) ∧
      (((simdLoop input f i c₂ m₂ prev).1).length < m₁ - c₁ →
        (simdLoop input f i c₁ m₁ prev).1 = (simdLoop input f i c₂ m₂ prev).1 ∧
        (simdLoop input f i c₁ m₁ prev).2.1 =
          (simdLoop input f i c₂ m₂ prev).2.1 ∧
        (simdLoop input f i c₁ m₁ prev).2.2.2 =
          (simdLoop input f i c₂ m₂ prev).2.2.2)
  | 0, i, prev, c₁, m₁, c₂, m₂, h => by simp [simdLoop]
  | f + 1, i, prev, c₁, m₁, c₂, m₂, h => by
    by_cases hcond : i + 64 ≤ input.length
    · by_cases h1 : c₁ < m₁
      · have h2 : c₂ < m₂ := by omega
        rw [simdLoop, if_pos ⟨hcond, h1⟩, simdLoop, if_pos ⟨hcond, h2⟩]
        simp only []
        set fc := chunkFiltered input i prev with hfc
        set e₁ := extractBits input i 64 fc.1 c₁ m₁ with he₁
        set e₂ := extractBits input i 64 fc.1 c₂ m₂ with he₂
        have hee : e₁ = e₂.take (m₁ - c₁) :=
          extract_take input i 64 fc.1 c₁ m₁ c₂ m₂ h
        by_cases hlen : e₂.length < m₁ - c₁
        · have he12 : e₁ = e₂ := by
            rw [hee]; exact List.take_of_length_le (by omega)
          have ih := simd_take_strong input f (i + 64) fc.2 (c₁ + e₂.length)
            m₁ (c₂ + e₂.length) m₂ (by omega)
          rw [he12]
          set r₁ := simdLoop input f (i + 64) (c₁ + e₂.length) m₁ fc.2 with hr₁
          set r₂ := simdLoop input f (i + 64) (c₂ + e₂.length) m₂ fc.2 with hr₂
          constructor
          · rw [List.take_append_eq_append_take,
              List.take_of_length_le (l := e₂) (by omega), ih.1]
            have : m₁ - (c₁ + e₂.length) = m₁ - c₁ - e₂.length := by omega
            rw [this]
          · intro hl2
            rw [List.length_append] at hl2
            have hr2small : r₂.1.length < m₁ - (c₁ + e₂.length) := by omega
            obtain ⟨ha, hb, hc⟩ := ih.2 hr2small
            exact ⟨by rw [ha], by rw [hb], by rw [hc]⟩
        · have hlen' : m₁ - c₁ ≤ e₂.length := by omega
          have hlene : e₁.length = m₁ - c₁ := by
            rw [hee, List.length_take]; omega
          have hstop : simdLoop input f (i + 64) (c₁ + e₁.length) m₁ fc.2 =
              ([], i + 64, c₁ + e₁.length, fc.2) := by
            apply simd_stop
            omega
          rw [hstop]
          constructor
          · rw [List.take_append_of_le_length hlen', ← hee]
            simp
          · intro hl2
            rw [List.length_append] at hl2
            omega
      · have hb1 : m₁ - c₁ = 0 := by omega
        rw [simdLoop, if_neg (fun hc => absurd hc.2 (by omega))]
        constructor
        · simp [hb1]
        · intro hl2; omega
    · rw [simdLoop, if_neg (fun hc => absurd hc.1 (by omega)),
        simdLoop, if_neg (fun hc => absurd hc.1 (by omega))]
      exact ⟨by simp, fun _ => ⟨rfl, rfl, rfl⟩⟩

/-- The `(position, character)` pair sequence produced by the successful
branch of `neon_json_find_structural`: SIMD chunk loop followed by the
scalar tail. -/
def findAll (input : List Nat) (max_output : Nat) : List (Nat × Nat) :=
  let r := simdLoop input input.length 0 0 max_output false
  r.1 ++ tailLoop (input.drop r.2.1) r.2.1 r.2.2.1 max_output r.2.2.2 false

theorem find_eq_pairs (input : List Nat) (hne : input.length ≠ 0) (m : Nat) :
    neon_json_find_structural false false false false input m =
      (Int.ofNat (findAll input m).length, (findAll input m).map Prod.fst,
        (findAll input m).map Prod.snd) := by
  rw [neon_json_find_structural, if_neg (by simp [hne])]
  rfl

theorem findAll_take (input : List Nat) (m M : Nat) (hmM : m ≤ M) :
    findAll input m = (findAll input M).take m := by
  unfold findAll
  simp only []
  set S₁ := simdLoop input input.length 0 0 m false with hS₁
  set S₂ := simdLoop input input.length 0 0 M false with hS₂
  have st := simd_take_strong input input.length 0 false 0 m 0 M (by omega)
  rw [← hS₁, ← hS₂] at st
  simp only [Nat.sub_zero] at st
  have hc₁ : S₁.2.2.1 = 0 + S₁.1.length := by
    rw [hS₁]; exact simd_count input input.length 0 0 m false
  have hc₂ : S₂.2.2.1 = 0 + S₂.1.length := by
    rw [hS₂]; exact simd_count input input.length 0 0 M false
  by_cases hL : S₂.1.length < m
  · obtain ⟨ha, hb, hc⟩ := st.2 hL
    have hcc : S₁.2.2.1 = S₂.1.length := by rw [hc₁, ha]; omega
    rw [ha, hb, hc, hcc, hc₂]
    have tt := tail_take (input.drop S₂.2.1) S₂.2.1 S₂.1.length m
      S₂.1.length M S₂.2.2.2 false (by omega)
    simp only [Nat.zero_add] at tt ⊢
    rw [tt]
    rw [List.take_append_eq_append_take,
      List.take_of_length_le (l := S₂.1) (by omega)]
  · have hL' : m ≤ S₂.1.length := by omega
    have hlen₁ : S₁.1.length = m := by
      rw [st.1, List.length_take]; omega
    have hstop : tailLoop (input.drop S₁.2.1) S₁.2.1 S₁.2.2.1 m S₁.2.2.2 false
        = [] := by
      apply tail_stop
      omega
    rw [hstop, st.1, List.take_append_of_le_length hL']
    simp

/-! ## Claim C7 -/

/-- C7: `neon_json_find_structural` returns `-1` exactly when one of the
pointer arguments is null or the input length is zero, and in that case
nothing is written to the output arrays; likewise `neon_json_classify`
returns `-1` exactly on null input, null output, or zero length. -/
theorem claims_C7 :
    ∀ (cn inn pn chn onull : Bool) (input : List Nat) (m : Nat),
      ((neon_json_find_structural cn inn pn chn input m).1 = -1 ↔
        (cn || inn || (input.length == 0) || pn || chn) = true) ∧
      (neon_json_find_structural cn inn pn chn input m = (-1, [], []) ↔
        (cn || inn || (input.length == 0) || pn || chn) = true) ∧
      ((neon_json_classify inn onull input).1 = -1 ↔
        (inn || onull || (input.length == 0)) = true) ∧
      (neon_json_classify inn onull input = (-1, []) ↔
        (inn || onull || (input.length == 0)) = true) := by
  intro cn inn pn chn onull input m
  refine ⟨?_, ?_, ?_, ?_⟩
  · by_cases h : (cn || inn || (input.length == 0) || pn || chn) = true
    · rw [neon_json_find_structural, if_pos h]
      simp [h]
    · rw [neon_json_find_structural, if_neg h]
      refine iff_of_false ?_ h
      simp only []
      omega
  · by_cases h : (cn || inn || (input.length == 0) || pn || chn) = true
    · rw [neon_json_find_structural, if_pos h]
      simp [h]
    · rw [neon_json_find_structural, if_neg h]
      refine iff_of_false ?_ h
      simp only [Prod.mk.injEq, not_and]
      intro hcon
      exact absurd hcon (by omega)
  · by_cases h : (inn || onull || (input.length == 0)) = true
    · rw [neon_json_classify, if_pos h]
      simp [h]
    · rw [neon_json_classify, if_neg h]
      simp [h]
  · by_cases h : (inn || onull || (input.length == 0)) = true
    · rw [neon_json_classify, if_pos h]
      simp [h]
    · rw [neon_json_classify, if_neg h]
      simp [h]

/-! ## Claim C8 -/

/-- C8: capacity coherence.  With a larger budget `M` as reference, the run
with budget `m ≤ M` emits exactly the first `m` reference entries (no entry
before the truncation point is lost) and returns
`min m (reference count)` — in particular, when the capacity is exhausted
before the input is consumed the returned count equals `max_output`, which
is exactly the caller-visible truncation condition of spec §7. -/
theorem claims_C8 :
    ∀ (input : List Nat) (m M : Nat), input ≠ [] → m ≤ M →
      (neon_json_find_structural false false false false input m).2.1 =
        ((neon_json_find_structural false false false false input M).2.1).take
          m ∧
      (neon_json_find_structural false false false false input m).2.2 =
        ((neon_json_find_structural false false false false input M).2.2).take
          m ∧
      (neon_json_find_structural false false false false input m).1 =
        Int.ofNat (min m
          ((neon_json_find_structural false false false false input
            M).2.1).length) := by
  intro input m M hne hmM
  have hlen : input.length ≠ 0 := by simpa using hne
  rw [find_eq_pairs input hlen m, find_eq_pairs input hlen M]
  refine ⟨?_, ?_, ?_⟩ <;> rw [findAll_take input m M hmM] <;>
    simp [List.map_take, List.length_take]

theorem claims_C8_witness :
    ([91, 49, 44, 50, 93] : List Nat) ≠ [] ∧ (2 : Nat) ≤ 10 ∧
      ((neon_json_find_structural false false false false [91, 49, 44, 50, 93]
          2).2.1 =
        ((neon_json_find_structural false false false false [91, 49, 44, 50, 93]
            10).2.1).take 2 ∧
      (neon_json_find_structural false false false false [91, 49, 44, 50, 93]
          2).2.2 =
        ((neon_json_find_structural false false false false [91, 49, 44, 50, 93]
            10).2.2).take 2 ∧
      (neon_json_find_structural false false false false [91, 49, 44, 50, 93]
          2).1 =
        Int.ofNat (min 2
          ((neon_json_find_structural false false false false [91, 49, 44, 50, 93]
            10).2.1).length)) :=
  ⟨by decide, by decide,
    claims_C8 [91, 49, 44, 50, 93] 2 10 (by decide) (by decide)⟩

/-! ## Claim C9 -/

set_option maxRecDepth 40000 in
theorem lookup_eq_contract_lt : ∀ b, b < 256 → LOOKUP.getD b 9 = contract_code b := by
  decide

set_option maxRecDepth 40000 in
theorem lookup_eq_contract (b : Nat) : LOOKUP.getD b 9 = contract_code b := by
  by_cases hb : b < 256
  · exact lookup_eq_contract_lt b hb
  · have hlen : LOOKUP.length = 256 := by decide
    have h1 : LOOKUP.getD b 9 = 9 := by
      apply List.getD_eq_default
      omega
    have h2 : contract_code b = 9 := by
      unfold contract_code
      repeat rw [if_neg (by omega)]
    rw [h1, h2]

/-- C9: for every nonempty input, `neon_json_classify` returns 0 and writes
exactly one code byte per input byte following the fixed contract
(0 = whitespace, 1-8 = structural alphabet, 9 = other); as a pure function
of the input, two calls on the same bytes are definitionally identical. -/
theorem claims_C9 (input : List Nat) (hne : input ≠ []) :
    neon_json_classify false false input = (0, input.map contract_code) := by
  have hlen : input.length ≠ 0 := by simpa using hne
  rw [neon_json_classify, if_neg (by simp [hlen])]
  refine Prod.ext rfl ?_
  simp only []
  exact List.map_congr_left fun b _ => lookup_eq_contract b

theorem claims_C9_witness :
    ([123, 34, 9, 97] : List Nat) ≠ [] ∧
      neon_json_classify false false [123, 34, 9, 97] = (0, [1, 5, 0, 9]) := by
  refine ⟨by decide, ?_⟩
  rw [claims_C9 [123, 34, 9, 97] (by decide)]
  decide

/-! ## Element-wise description of the emitted pairs -/

theorem extract_mem (input : List Nat) (base : Nat) (filt c m : Nat)
    (hlt : filt < 2 ^ 64) :
    ∀ pr ∈ extractBits input base 64 filt c m, ∃ k, k < 64 ∧
      filt.testBit k = true ∧
      pr = ((base + k) % 2 ^ 32, input.getD (base + k) 0) := by
  intro pr hpr
  rw [extract_eq input base 64 filt c m hlt (by omega)] at hpr
  obtain ⟨k, hk, hpr⟩ := List.mem_map.mp hpr
  have hk' := List.mem_of_mem_take hk
  have hk'' := List.mem_filter.mp hk'
  exact ⟨k, List.mem_range.mp hk''.1, hk''.2, hpr.symm⟩

theorem chunk_mask_lt (input : List Nat) (i : Nat) (p : Nat → Bool) :
    maskOfList p ((input.drop i).take 64) < 2 ^ 64 := by
  have h := maskOfList_lt p ((input.drop i).take 64)
  have hlen : ((input.drop i).take 64).length ≤ 64 := by
    rw [List.length_take]; omega
  exact lt_of_lt_of_le h (Nat.pow_le_pow_right (by omega) hlen)

theorem chunkFiltered_lt (input : List Nat) (i : Nat) (prev : Bool) :
    (chunkFiltered input i prev).1 < 2 ^ 64 := by
  unfold chunkFiltered
  simp only [classify_chunk_64]
  exact Nat.or_lt_two_pow
    (lt_of_le_of_lt Nat.and_le_left (chunk_mask_lt input i _))
    (lt_of_le_of_lt Nat.and_le_left (chunk_mask_lt input i _))

theorem simd_elems (input : List Nat) :
    ∀ (f i c m : Nat) (prev : Bool),
      (∀ pr ∈ (simdLoop input f i c m prev).1, ∃ t, i ≤ t ∧
        t < (simdLoop input f i c m prev).2.1 ∧ t < input.length ∧
        pr = (t % 2 ^ 32, input.getD t 0)) ∧
      i ≤ (simdLoop input f i c m prev).2.1
  | 0, i, c, m, prev => by simp [simdLoop]
  | f + 1, i, c, m, prev => by
    by_cases h : i + 64 ≤ input.length ∧ c < m
    · rw [simdLoop, if_pos h]
      simp only []
      set fc := chunkFiltered input i prev with hfc
      set e := extractBits input i 64 fc.1 c m with he
      have ih := simd_elems input f (i + 64) (c + e.length) m fc.2
      set r := simdLoop input f (i + 64) (c + e.length) m fc.2 with hr
      have hi64 : i + 64 ≤ r.2.1 := ih.2
      constructor
      · intro pr hpr
        rcases List.mem_append.mp hpr with hin | hin
        · obtain ⟨k, hk64, _, hpreq⟩ :=
            extract_mem input i fc.1 c m (chunkFiltered_lt input i prev) pr hin
          exact ⟨i + k, by omega, by omega, by omega, hpreq⟩
        · obtain ⟨t, ht1, ht2, ht3, ht4⟩ := ih.1 pr hin
          exact ⟨t, by omega, ht2, ht3, ht4⟩
      · omega
    · rw [simdLoop, if_neg h]
      simp

theorem tail_elems (input : List Nat) :
    ∀ (rem : List Nat) (i c m : Nat) (s bs : Bool), input.drop i = rem →
      ∀ pr ∈ tailLoop rem i c m s bs, ∃ t, i ≤ t ∧ t < input.length ∧
        pr = (t % 2 ^ 32, input.getD t 0)
  | [], i, c, m, s, bs, hrem => by simp [tailLoop]
  | ch :: rest, i, c, m, s, bs, hrem => by
    have hlt : i < input.length := by
      by_contra hge
      rw [List.drop_eq_nil_of_le (by omega)] at hrem
      exact absurd hrem (by simp)
    have hdec := List.drop_eq_getElem_cons (l := input) (n := i) hlt
    rw [hrem] at hdec
    have hch : input[i] = ch := by
      have := (List.cons.injEq _ _ _ _).mp hdec.symm
      exact this.1
    have hrest : input.drop (i + 1) = rest := by
      have := (List.cons.injEq _ _ _ _).mp hdec.symm
      exact this.2
    have hgetD : input.getD i 0 = ch := by
      simp [List.getD_eq_getElem?_getD, List.getElem?_eq_getElem hlt, hch]
    have ihfun := tail_elems input rest (i + 1) 
    intro pr hpr
    rw [tailLoop] at hpr
    by_cases hc : c < m
    · rw [if_pos hc] at hpr
      by_cases hb1 : ch = 92 ∧ bs = false
      · rw [if_pos hb1] at hpr
        obtain ⟨t, ht1, ht2, ht3⟩ := ihfun c m s true hrest pr hpr
        exact ⟨t, by omega, ht2, ht3⟩
      rw [if_neg hb1] at hpr
      by_cases hb2 : ch = 34 ∧ bs = false
      · rw [if_pos hb2] at hpr
        rcases List.mem_cons.mp hpr with hpr | hpr
        · exact ⟨i, by omega, hlt, by rw [hpr, hgetD]⟩
        · obtain ⟨t, ht1, ht2, ht3⟩ := ihfun (c + 1) m (!s) false hrest pr hpr
          exact ⟨t, by omega, ht2, ht3⟩
      rw [if_neg hb2] at hpr
      by_cases hb3 : s = false ∧ bs = false ∧ isSix ch = true
      · rw [if_pos hb3] at hpr
        rcases List.mem_cons.mp hpr with hpr | hpr
        · exact ⟨i, by omega, hlt, by rw [hpr, hgetD]⟩
        · obtain ⟨t, ht1, ht2, ht3⟩ := ihfun (c + 1) m s false hrest pr hpr
          exact ⟨t, by omega, ht2, ht3⟩
      · rw [if_neg hb3] at hpr
        obtain ⟨t, ht1, ht2, ht3⟩ := ihfun c m s false hrest pr hpr
        exact ⟨t, by omega, ht2, ht3⟩
    · rw [if_neg hc] at hpr
      exact absurd hpr (by simp)

theorem findAll_elems (input : List Nat) (m : Nat) :
    ∀ pr ∈ findAll input m, ∃ t, t < input.length ∧
      pr = (t % 2 ^ 32, input.getD t 0) := by
  intro pr hpr
  unfold findAll at hpr
  simp only [] at hpr
  rcases List.mem_append.mp hpr with hin | hin
  · obtain ⟨t, _, _, ht3, ht4⟩ :=
      (simd_elems input input.length 0 0 m false).1 pr hin
    exact ⟨t, ht3, ht4⟩
  · obtain ⟨t, _, ht2, ht3⟩ := tail_elems input
      (input.drop (simdLoop input input.length 0 0 m false).2.1)
      (simdLoop input input.length 0 0 m false).2.1
      (simdLoop input input.length 0 0 m false).2.2.1 m
      (simdLoop input input.length 0 0 m false).2.2.2 false rfl pr hin
    exact ⟨t, ht2, ht3⟩

/-! ## Claim C10 -/

/-- C10: on every successful call the function writes exactly `count`
entries to each output array with `count ≤ max_output`, every stored offset
is `< input_len`, and every stored character was read from an in-bounds
input byte. -/
theorem claims_C10 (input : List Nat) (m : Nat) (hne : input ≠ []) :
    (neon_json_find_structural false false false false input m).1 =
      Int.ofNat
        ((neon_json_find_structural false false false false input m).2.1).length ∧
    ((neon_json_find_structural false false false false input m).2.2).length =
      ((neon_json_find_structural false false false false input m).2.1).length ∧
    ((neon_json_find_structural false false false false input m).2.1).length
      ≤ m ∧
    (∀ p ∈ (neon_json_find_structural false false false false input m).2.1,
      p < input.length) ∧
    (∀ ch ∈ (neon_json_find_structural false false false false input m).2.2,
      ∃ t, t < input.length ∧ ch = input.getD t 0) := by
  have hlen : input.length ≠ 0 := by simpa using hne
  rw [find_eq_pairs input hlen m]
  refine ⟨by simp, by simp, ?_, ?_, ?_⟩
  · simp only [List.length_map]
    conv_lhs => rw [findAll_take input m m le_rfl]
    exact List.length_take_le m (findAll input m)
  · intro p hp
    simp only [List.mem_map] at hp
    obtain ⟨pr, hpr, hfst⟩ := hp
    obtain ⟨t, ht, hpr_eq⟩ := findAll_elems input m pr hpr
    rw [← hfst, hpr_eq]
    exact lt_of_le_of_lt (Nat.mod_le t (2 ^ 32)) ht
  · intro ch hch
    simp only [List.mem_map] at hch
    obtain ⟨pr, hpr, hsnd⟩ := hch
    obtain ⟨t, ht, hpr_eq⟩ := findAll_elems input m pr hpr
    exact ⟨t, ht, by rw [← hsnd, hpr_eq]⟩

theorem claims_C10_witness :
    ([123, 34, 97, 34, 58, 49, 125] : List Nat) ≠ [] ∧
      ((neon_json_find_structural false false false false
          [123, 34, 97, 34, 58, 49, 125] 100).1 =
        Int.ofNat
          ((neon_json_find_structural false false false false
            [123, 34, 97, 34, 58, 49, 125] 100).2.1).length ∧
      ((neon_json_find_structural false false false false
          [123, 34, 97, 34, 58, 49, 125] 100).2.2).length =
        ((neon_json_find_structural false false false false
          [123, 34, 97, 34, 58, 49, 125] 100).2.1).length ∧
      ((neon_json_find_structural false false false false
          [123, 34, 97, 34, 58, 49, 125] 100).2.1).length ≤ 100 ∧
      (∀ p ∈ (neon_json_find_structural false false false false
          [123, 34, 97, 34, 58, 49, 125] 100).2.1,
        p < ([123, 34, 97, 34, 58, 49, 125] : List Nat).length) ∧
      (∀ ch ∈ (neon_json_find_structural false false false false
          [123, 34, 97, 34, 58, 49, 125] 100).2.2,
        ∃ t, t < ([123, 34, 97, 34, 58, 49, 125] : List Nat).length ∧
          ch = ([123, 34, 97, 34, 58, 49, 125] : List Nat).getD t 0)) :=
  ⟨by decide, claims_C10 [123, 34, 97, 34, 58, 49, 125] 100 (by decide)⟩

/-! ## Sortedness of the emitted positions (inputs within the u32 range) -/

theorem extract_sorted (input : List Nat) (base filt c m : Nat)
    (hlt : filt < 2 ^ 64) (hbase : base + 64 ≤ 2 ^ 32) :
    List.Pairwise (fun a b : Nat × Nat => a.1 < b.1)
      (extractBits input base 64 filt c m) ∧
    ∀ pr ∈ extractBits input base 64 filt c m,
      base ≤ pr.1 ∧ pr.1 < base + 64 ∧ pr.2 = input.getD pr.1 0 := by
  rw [extract_eq input base 64 filt c m hlt (by omega)]
  constructor
  · apply List.pairwise_map.mpr
    have h1 : List.Pairwise (· < ·) ((List.range 64).filter (filt.testBit ·)) :=
      (List.pairwise_lt_range 64).filter _
    have h2 : List.Pairwise (· < ·)
        (((List.range 64).filter (filt.testBit ·)).take (m - c)) :=
      h1.sublist (List.take_sublist _ _)
    refine List.Pairwise.imp_of_mem ?_ h2
    intro a b ha hb hab
    have ha64 : a < 64 :=
      List.mem_range.mp (List.mem_filter.mp (List.mem_of_mem_take ha)).1
    have hb64 : b < 64 :=
      List.mem_range.mp (List.mem_filter.mp (List.mem_of_mem_take hb)).1
    simp only []
    rw [Nat.mod_eq_of_lt (by omega), Nat.mod_eq_of_lt (by omega)]
    omega
  · intro pr hpr
    obtain ⟨k, hk, hpr⟩ := List.mem_map.mp hpr
    have hk64 : k < 64 :=
      List.mem_range.mp (List.mem_filter.mp (List.mem_of_mem_take hk)).1
    have hmod : (base + k) % 2 ^ 32 = base + k := Nat.mod_eq_of_lt (by omega)
    rw [← hpr]
    simp only [hmod]
    exact ⟨by omega, by omega, trivial⟩

theorem simd_sorted (input : List Nat) (h32 : input.length ≤ 2 ^ 32) :
    ∀ (f i c m : Nat) (prev : Bool),
      List.Pairwise (fun a b : Nat × Nat => a.1 < b.1)
        (simdLoop input f i c m prev).1 ∧
      ∀ pr ∈ (simdLoop input f i c m prev).1,
        i ≤ pr.1 ∧ pr.1 < (simdLoop input f i c m prev).2.1 ∧
          pr.2 = input.getD pr.1 0
  | 0, i, c, m, prev => by simp [simdLoop]
  | f + 1, i, c, m, prev => by
    by_cases h : i + 64 ≤ input.length ∧ c < m
    · rw [simdLoop, if_pos h]
      simp only []
      set fc := chunkFiltered input i prev with hfc
      set e := extractBits input i 64 fc.1 c m with he
      have ih := simd_sorted input h32 f (i + 64) (c + e.length) m fc.2
      set r := simdLoop input f (i + 64) (c + e.length) m fc.2 with hr
      have hi64 : i + 64 ≤ r.2.1 := by
        rw [hr]; exact (simd_elems input f (i + 64) (c + e.length) m fc.2).2
      have hes := extract_sorted input i fc.1 c m (chunkFiltered_lt input i prev)
        (by omega)
      rw [← he] at hes
      constructor
      · rw [List.pairwise_append]
        refine ⟨hes.1, ih.1, ?_⟩
        intro a ha b hb
        have h1 := hes.2 a ha
        have h2 := ih.2 b hb
        omega
      · intro pr hpr
        rcases List.mem_append.mp hpr with hin | hin
        · have h1 := hes.2 pr hin
          exact ⟨h1.1, by omega, h1.2.2⟩
        · have h2 := ih.2 pr hin
          exact ⟨by omega, h2.2.1, h2.2.2⟩
    · rw [simdLoop, if_neg h]
      simp

theorem tail_sorted (input : List Nat) (h32 : input.length ≤ 2 ^ 32) :
    ∀ (rem : List Nat) (i c m : Nat) (s bs : Bool), input.drop i = rem →
      List.Pairwise (fun a b : Nat × Nat => a.1 < b.1)
        (tailLoop rem i c m s bs) ∧
      ∀ pr ∈ tailLoop rem i c m s bs,
        i ≤ pr.1 ∧ pr.1 < input.length ∧ pr.2 = input.getD pr.1 0
  | [], i, c, m, s, bs, hrem => by simp [tailLoop]
  | ch :: rest, i, c, m, s, bs, hrem => by
    have hlt : i < input.length := by
      by_contra hge
      rw [List.drop_eq_nil_of_le (by omega)] at hrem
      exact absurd hrem (by simp)
    have hdec := List.drop_eq_getElem_cons (l := input) (n := i) hlt
    rw [hrem] at hdec
    have hch : input[i] = ch := ((List.cons.injEq _ _ _ _).mp hdec.symm).1
    have hrest : input.drop (i + 1) = rest :=
      ((List.cons.injEq _ _ _ _).mp hdec.symm).2
    have hgetD : input.getD i 0 = ch := by
      simp [List.getD_eq_getElem?_getD, List.getElem?_eq_getElem hlt, hch]
    have hmod : i % 2 ^ 32 = i := Nat.mod_eq_of_lt (by omega)
    rw [tailLoop]
    by_cases hc : c < m
    · rw [if_pos hc]
      by_cases hb1 : ch = 92 ∧ bs = false
      · rw [if_pos hb1]
        have ih := tail_sorted input h32 rest (i + 1) c m s true hrest
        refine ⟨ih.1, ?_⟩
        intro pr hpr
        have := ih.2 pr hpr
        exact ⟨by omega, this.2.1, this.2.2⟩
      rw [if_neg hb1]
      by_cases hb2 : ch = 34 ∧ bs = false
      · rw [if_pos hb2]
        have ih := tail_sorted input h32 rest (i + 1) (c + 1) m (!s) false hrest
        constructor
        · rw [List.pairwise_cons]
          refine ⟨?_, ih.1⟩
          intro pr hpr
          have := ih.2 pr hpr
          simp only [hmod]
          omega
        · intro pr hpr
          rcases List.mem_cons.mp hpr with hpr | hpr
          · rw [hpr]
            simp only [hmod]
            exact ⟨le_refl i, hlt, by rw [hgetD]⟩
          · have := ih.2 pr hpr
            exact ⟨by omega, this.2.1, this.2.2⟩
      rw [if_neg hb2]
      by_cases hb3 : s = false ∧ bs = false ∧ isSix ch = true
      · rw [if_pos hb3]
        have ih := tail_sorted input h32 rest (i + 1) (c + 1) m s false hrest
        constructor
        · rw [List.pairwise_cons]
          refine ⟨?_, ih.1⟩
          intro pr hpr
          have := ih.2 pr hpr
          simp only [hmod]
          omega
        · intro pr hpr
          rcases List.mem_cons.mp hpr with hpr | hpr
          · rw [hpr]
            simp only [hmod]
            exact ⟨le_refl i, hlt, by rw [hgetD]⟩
          · have := ih.2 pr hpr
            exact ⟨by omega, this.2.1, this.2.2⟩
      · rw [if_neg hb3]
        have ih := tail_sorted input h32 rest (i + 1) c m s false hrest
        refine ⟨ih.1, ?_⟩
        intro pr hpr
        have := ih.2 pr hpr
        exact ⟨by omega, this.2.1, this.2.2⟩
    · rw [if_neg hc]
      simp

theorem findAll_sorted (input : List Nat) (h32 : input.length ≤ 2 ^ 32)
    (m : Nat) :
    List.Pairwise (fun a b : Nat × Nat => a.1 < b.1) (findAll input m) ∧
    ∀ pr ∈ findAll input m, pr.2 = input.getD pr.1 0 := by
  unfold findAll
  simp only []
  set S := simdLoop input input.length 0 0 m false with hS
  have hsimd := simd_sorted input h32 input.length 0 0 m false
  rw [← hS] at hsimd
  have htail := tail_sorted input h32 (input.drop S.2.1) S.2.1 S.2.2.1 m
    S.2.2.2 false rfl
  constructor
  · rw [List.pairwise_append]
    refine ⟨hsimd.1, htail.1, ?_⟩
    intro a ha b hb
    have h1 := hsimd.2 a ha
    have h2 := htail.2 b hb
    omega
  · intro pr hpr
    rcases List.mem_append.mp hpr with hin | hin
    · exact (hsimd.2 pr hin).2.2
    · exact (htail.2 pr hin).2.2

/-! ## Claim C5 (amended: inputs within the u32 position range) -/

/-- C5 (amended): for inputs of length at most `2^32` — the range
representable by the `uint32_t` positions array — every successful call
yields strictly increasing positions with `characters[i] =
input[positions[i]]`.  (For longer inputs the `(uint32_t)` cast wraps;
see the counterexample.) -/
theorem claims_C5 (input : List Nat) (m : Nat) (h32 : input.length ≤ 2 ^ 32) :
    List.Chain' (· < ·)
      (neon_json_find_structural false false false false input m).2.1 ∧
    (neon_json_find_structural false false false false input m).2.2 =
      ((neon_json_find_structural false false false false input m).2.1).map
        (fun p => input.getD p 0) := by
  by_cases hne : input.length = 0
  · have hnil : input = [] := List.length_eq_zero.mp hne
    subst hnil
    simp [neon_json_find_structural]
  · rw [find_eq_pairs input hne m]
    have hs := findAll_sorted input h32 m
    constructor
    · exact (List.pairwise_map.mpr hs.1).chain'
    · rw [List.map_map]
      apply List.map_congr_left
      intro pr hpr
      exact hs.2 pr hpr

theorem claims_C5_witness :
    ([123, 34, 97, 34, 58, 49, 125] : List Nat).length ≤ 2 ^ 32 ∧
      (List.Chain' (· < ·)
        (neon_json_find_structural false false false false
          [123, 34, 97, 34, 58, 49, 125] 100).2.1 ∧
      (neon_json_find_structural false false false false
          [123, 34, 97, 34, 58, 49, 125] 100).2.2 =
        ((neon_json_find_structural false false false false
            [123, 34, 97, 34, 58, 49, 125] 100).2.1).map
          (fun p => ([123, 34, 97, 34, 58, 49, 125] : List Nat).getD p 0)) :=
  ⟨by decide, claims_C5 [123, 34, 97, 34, 58, 49, 125] 100 (by decide)⟩

/-! ## Characterization on quote-free, backslash-free inputs -/

/-- The `(position, character)` pair the indexer stores for offset `p`:
the `uint32_t`-cast offset and the raw input byte. -/
def emitAt (input : List Nat) (p : Nat) : Nat × Nat :=
  (p % 2 ^ 32, input.getD p 0)

theorem chunk_getD (input : List Nat) (i k : Nat) (hk : k < 64)
    (hlen : i + 64 ≤ input.length) :
    ((input.drop i).take 64).getD k 0 = input.getD (i + k) 0 := by
  have h1 : k < ((input.drop i).take 64).length := by
    rw [List.length_take, List.length_drop]; omega
  have h2 : i + k < input.length := by omega
  rw [List.getD_eq_getElem?_getD, List.getElem?_eq_getElem h1,
    List.getD_eq_getElem?_getD, List.getElem?_eq_getElem h2]
  simp [List.getElem_take, List.getElem_drop]

theorem chunk_mem (input : List Nat) (i : Nat) :
    ∀ x ∈ (input.drop i).take 64, x ∈ input := fun _ hx =>
  ((List.take_sublist _ _).trans (List.drop_sublist _ _)).mem hx

theorem chunkFiltered_pure (input : List Nat) (i : Nat)
    (hq : ∀ b ∈ input, b ≠ 34 ∧ b ≠ 92) :
    chunkFiltered input i false =
      (maskOfList is_structural_byte ((input.drop i).take 64), false) := by
  unfold chunkFiltered
  simp only [classify_chunk_64]
  have hq34 : maskOfList (fun b => b == 34) ((input.drop i).take 64) = 0 := by
    apply maskOfList_eq_zero
    intro b hb
    simpa using (hq b (chunk_mem input i b hb)).1
  have hq92 : maskOfList (fun b => b == 92) ((input.drop i).take 64) = 0 := by
    apply maskOfList_eq_zero
    intro b hb
    simpa using (hq b (chunk_mem input i b hb)).2
  rw [hq34, hq92, find_odd_zero]
  have hsm : string_mask_step 0 false = (0, false) := by
    rw [string_mask_step]
    simp [pxor_zero, parity64_zero]
  simp only [Nat.zero_shiftLeft, Nat.zero_and, Nat.xor_zero, hsm]
  have hstruct := chunk_mask_lt input i is_structural_byte
  have : maskOfList is_structural_byte ((input.drop i).take 64) &&& MASK64 =
      maskOfList is_structural_byte ((input.drop i).take 64) := by
    rw [MASK64]
    exact Nat.and_pow_two_sub_one_of_lt_two_pow hstruct
  simp [this]

theorem simd_six (input : List Nat) (hq : ∀ b ∈ input, b ≠ 34 ∧ b ≠ 92) :
    ∀ (f i c m : Nat), input.length ≤ i + 64 * f → i ≤ input.length →
      c + (input.length - i) ≤ m →
      (simdLoop input f i c m false).1 =
        ((List.range' i ((simdLoop input f i c m false).2.1 - i)).filter
          (fun p => isSix (input.getD p 0))).map (emitAt input) ∧
      (simdLoop input f i c m false).2.2.2 = false ∧
      (simdLoop input f i c m false).2.1 ≤ input.length ∧
      input.length < (simdLoop input f i c m false).2.1 + 64
  | 0, i, c, m, hf, hi, hcap => by
    have : i = input.length := by omega
    subst this
    simp [simdLoop]
  | f + 1, i, c, m, hf, hi, hcap => by
    by_cases hcond : i + 64 ≤ input.length
    · have hc : c < m := by omega
      rw [simdLoop, if_pos ⟨hcond, hc⟩]
      simp only [chunkFiltered_pure input i hq]
      set structural := maskOfList is_structural_byte ((input.drop i).take 64)
        with hstruct
      have hlt : structural < 2 ^ 64 := chunk_mask_lt input i _
      have hchunklen : ((input.drop i).take 64).length = 64 := by
        rw [List.length_take, List.length_drop]; omega
      have hext := extract_eq input i 64 structural c m hlt (by omega)
      have hfl : ((List.range 64).filter (structural.testBit ·)).length ≤ 64 :=
        le_trans (List.length_filter_le _ _) (by simp)
      rw [List.take_of_length_le (by omega)] at hext
      have hconv : (List.range 64).filter (structural.testBit ·) =
          (List.range 64).filter (fun k => isSix (input.getD (i + k) 0)) := by
        apply List.filter_congr
        intro k hk
        have hk64 : k < 64 := List.mem_range.mp hk
        rw [hstruct, maskOfList_testBit, chunk_getD input i k hk64 hcond,
          hchunklen]
        set b := input.getD (i + k) 0 with hbdef
        have hmem : b ∈ input := by
          have h2 : i + k < input.length := by omega
          rw [hbdef, List.getD_eq_getElem?_getD, List.getElem?_eq_getElem h2]
          simp [List.getElem_mem]
        have hne34 : b ≠ 34 := (hq b hmem).1
        simp [is_structural_byte, hk64, beq_iff_eq, hne34]
      rw [hconv] at hext
      have hseg : ((List.range 64).filter
            (fun k => isSix (input.getD (i + k) 0))).map
            (fun k => ((i + k) % 2 ^ 32, input.getD (i + k) 0)) =
          ((List.range' i 64).filter
            (fun p => isSix (input.getD p 0))).map (emitAt input) := by
        rw [List.range'_eq_map_range, List.filter_map, List.map_map]
        rfl
      rw [hseg] at hext
      set e := extractBits input i 64 structural c m with he
      have hlen_e : e.length ≤ 64 := by
        rw [hext]
        simp only [List.length_map]
        exact le_trans (List.length_filter_le _ _) (by simp)
      have ih := simd_six input hq f (i + 64) (c + e.length) m
        (by omega) (by omega) (by omega)
      set r := simdLoop input f (i + 64) (c + e.length) m false with hr
      obtain ⟨ih1, ih2, ih3, ih4⟩ := ih
      have hfi : i + 64 ≤ r.2.1 := by
        have := (simd_elems input f (i + 64) (c + e.length) m false).2
        rw [← hr] at this
        exact this
      refine ⟨?_, ih2, by omega, by omega⟩
      rw [hext, ih1]
      rw [← List.map_append, ← List.filter_append]
      have hsplit : List.range' i 64 ++ List.range' (i + 64) (r.2.1 - (i + 64)) =
          List.range' i (r.2.1 - i) := by
        rw [List.range'_append_1]
        congr 1
        omega
      rw [hsplit]
    · rw [simdLoop, if_neg (fun hh => hcond hh.1)]
      simp only []
      refine ⟨?_, by trivial, by omega, by omega⟩
      simp

theorem tail_six (input : List Nat) (hq : ∀ b ∈ input, b ≠ 34 ∧ b ≠ 92) :
    ∀ (rem : List Nat) (i c m : Nat), input.drop i = rem →
      c + (input.length - i) ≤ m →
      tailLoop rem i c m false false =
        ((List.range' i rem.length).filter
          (fun p => isSix (input.getD p 0))).map (emitAt input)
  | [], i, c, m, hrem, hcap => by simp [tailLoop]
  | ch :: rest, i, c, m, hrem, hcap => by
    have hlt : i < input.length := by
      by_contra hge
      rw [List.drop_eq_nil_of_le (by omega)] at hrem
      exact absurd hrem (by simp)
    have hdec := List.drop_eq_getElem_cons (l := input) (n := i) hlt
    rw [hrem] at hdec
    have hch : input[i] = ch := ((List.cons.injEq _ _ _ _).mp hdec.symm).1
    have hrest : input.drop (i + 1) = rest :=
      ((List.cons.injEq _ _ _ _).mp hdec.symm).2
    have hgetD : input.getD i 0 = ch := by
      simp [List.getD_eq_getElem?_getD, List.getElem?_eq_getElem hlt, hch]
    have hchmem : ch ∈ input := by
      rw [← hch]; exact List.getElem_mem hlt
    have hremlen : (ch :: rest).length = input.length - i := by
      rw [← hrem, List.length_drop]
    have hc : c < m := by
      simp only [List.length_cons] at hremlen
      omega
    have hcap' : c + 1 + (input.length - (i + 1)) ≤ m := by
      simp only [List.length_cons] at hremlen
      omega
    have hcap'' : c + (input.length - (i + 1)) ≤ m := by omega
    rw [tailLoop, if_pos hc]
    rw [if_neg (by simp [(hq ch hchmem).2])]
    rw [if_neg (by simp [(hq ch hchmem).1])]
    rw [List.length_cons, List.range'_succ]
    by_cases hsix : isSix ch = true
    · rw [if_pos ⟨rfl, rfl, hsix⟩]
      rw [tail_six input hq rest (i + 1) (c + 1) m hrest hcap']
      rw [List.filter_cons, hgetD, hsix]
      simp only [if_pos trivial, List.map_cons]
      rw [emitAt, hgetD]
    · rw [if_neg (by tauto)]
      rw [tail_six input hq rest (i + 1) c m hrest hcap'']
      rw [List.filter_cons, hgetD]
      simp [hsix]

theorem findAll_six (input : List Nat) (hq : ∀ b ∈ input, b ≠ 34 ∧ b ≠ 92)
    (m : Nat) (hm : input.length ≤ m) :
    findAll input m = (spec_six_positions input).map (emitAt input) := by
  unfold findAll
  simp only []
  set S := simdLoop input input.length 0 0 m false with hS
  have hsim := simd_six input hq input.length 0 0 m
    (by have := Nat.le_mul_of_pos_left input.length (show 0 < 64 by omega); omega)
    (by omega) (by omega)
  rw [← hS] at hsim
  obtain ⟨h1, h2, h3, h4⟩ := hsim
  have hcount : S.2.2.1 = 0 + S.1.length := by
    rw [hS]; exact simd_count input input.length 0 0 m false
  have hSlen : S.1.length ≤ S.2.1 := by
    rw [h1]
    simp only [List.length_map]
    exact le_trans (List.length_filter_le _ _) (by simp)
  have hdroplen : (input.drop S.2.1).length = input.length - S.2.1 :=
    List.length_drop _ _
  have htail := tail_six input hq (input.drop S.2.1) S.2.1 S.1.length m rfl
    (by omega)
  rw [h2, hcount]
  simp only [Nat.zero_add]
  rw [htail, h1, hdroplen]
  rw [← List.map_append, ← List.filter_append]
  have hsplit : List.range' 0 (S.2.1 - 0) ++
      List.range' S.2.1 (input.length - S.2.1) = List.range' 0 input.length := by
    simp only [Nat.sub_zero]
    have := List.range'_append_1 0 S.2.1 (input.length - S.2.1)
    simp only [Nat.zero_add] at this
    rw [this]
    congr 1
    omega
  rw [hsplit, spec_six_positions, List.range_eq_range']

/-! ## Claim C6 (amended: inputs within the u32 position range) -/

/-- C6 (amended): on quote-free, backslash-free inputs of length at most
`2^32` with enough output capacity, the emitted positions are exactly the
byte offsets of `{ } [ ] : ,`.  (For longer inputs the `uint32_t` position
store wraps; see the counterexample.) -/
theorem claims_C6 (input : List Nat) (m : Nat) (h32 : input.length ≤ 2 ^ 32)
    (hq : ∀ b ∈ input, b ≠ 34 ∧ b ≠ 92) (hm : input.length ≤ m) :
    (neon_json_find_structural false false false false input m).2.1 =
      spec_six_positions input := by
  by_cases hne : input.length = 0
  · have hnil : input = [] := List.length_eq_zero.mp hne
    subst hnil
    simp [neon_json_find_structural, spec_six_positions]
  · rw [find_eq_pairs input hne m, findAll_six input hq m hm]
    simp only [List.map_map]
    have : ∀ p ∈ spec_six_positions input, (Prod.fst ∘ emitAt input) p = p := by
      intro p hp
      have hplen : p < input.length :=
        List.mem_range.mp (List.mem_filter.mp hp).1
      simp only [Function.comp, emitAt]
      exact Nat.mod_eq_of_lt (by omega)
    rw [List.map_congr_left this]
    simp

theorem claims_C6_witness :
    ([91, 49, 44, 50, 93] : List Nat).length ≤ 2 ^ 32 ∧
      (∀ b ∈ ([91, 49, 44, 50, 93] : List Nat), b ≠ 34 ∧ b ≠ 92) ∧
      ([91, 49, 44, 50, 93] : List Nat).length ≤ 10 ∧
      (neon_json_find_structural false false false false [91, 49, 44, 50, 93]
          10).2.1 = spec_six_positions [91, 49, 44, 50, 93] :=
  ⟨by decide, by decide, by decide,
    claims_C6 [91, 49, 44, 50, 93] 10 (by decide) (by decide) (by decide)⟩

/-! ## The u32 wrap-around on inputs longer than 2^32 bytes -/

theorem replicate_getD (n a p : Nat) (hp : p < n) :
    (List.replicate n a).getD p 0 = a := by
  have hlen : p < (List.replicate n a).length := by simp [hp]
  rw [List.getD_eq_getElem?_getD, List.getElem?_eq_getElem hlen]
  simp

theorem replicate_comma_positions :
    (neon_json_find_structural false false false false
        (List.replicate (2 ^ 32 + 64) 44) (2 ^ 32 + 64)).2.1 =
      (List.range (2 ^ 32 + 64)).map (fun p => p % 2 ^ 32) := by
  have hne : (List.replicate (2 ^ 32 + 64) 44 : List Nat).length ≠ 0 := by
    rw [List.length_replicate]
    omega
  have hq : ∀ b ∈ (List.replicate (2 ^ 32 + 64) 44 : List Nat),
      b ≠ 34 ∧ b ≠ 92 := by
    intro b hb
    rw [List.eq_of_mem_replicate hb]
    omega
  have hm : (List.replicate (2 ^ 32 + 64) 44 : List Nat).length ≤
      2 ^ 32 + 64 := by
    rw [List.length_replicate]
  rw [find_eq_pairs _ hne, findAll_six _ hq _ hm]
  have hfull : spec_six_positions (List.replicate (2 ^ 32 + 64) 44) =
      List.range (2 ^ 32 + 64) := by
    rw [spec_six_positions]
    simp only [List.length_replicate]
    rw [List.filter_eq_self]
    intro p hp
    rw [replicate_getD _ _ _ (List.mem_range.mp hp)]
    decide
  rw [hfull, List.map_map]
  apply List.map_congr_left
  intro p hp
  simp only [Function.comp, emitAt]

/-- C5 fails as stated for inputs longer than `2^32` bytes: positions are
stored through a `(uint32_t)` cast, so on an all-comma input of length
`2^32 + 64` the stored position wraps to `0` at offset `2^32` and the
positions array is not strictly increasing. -/
theorem claims_C5_counterexample :
    ¬ List.Chain' (· < ·)
      (neon_json_find_structural false false false false
        (List.replicate (2 ^ 32 + 64) 44) (2 ^ 32 + 64)).2.1 := by
  rw [replicate_comma_positions]
  have h1 : List.range' (2 ^ 32 - 1) 65 =
      (2 ^ 32 - 1) :: (2 ^ 32 : Nat) :: List.range' (2 ^ 32 + 1) 63 := by
    rw [show (65 : Nat) = 64 + 1 from rfl, List.range'_succ,
      show (2 ^ 32 - 1 + 1 : Nat) = 2 ^ 32 from by omega,
      show (64 : Nat) = 63 + 1 from rfl, List.range'_succ]
  have hsplit : List.range (2 ^ 32 + 64) =
      List.range' 0 (2 ^ 32 - 1) ++ (2 ^ 32 - 1) :: (2 ^ 32 : Nat) ::
        List.range' (2 ^ 32 + 1) 63 :=
    calc List.range (2 ^ 32 + 64) = List.range' 0 (2 ^ 32 + 64) :=
          List.range_eq_range' _
    _ = List.range' 0 ((2 ^ 32 - 1) + 65) := by
          rw [show (2 ^ 32 + 64 : Nat) = (2 ^ 32 - 1) + 65 from by omega]
    _ = List.range' 0 (2 ^ 32 - 1) ++ List.range' (0 + (2 ^ 32 - 1)) 65 :=
          (List.range'_append_1 0 (2 ^ 32 - 1) 65).symm
    _ = List.range' 0 (2 ^ 32 - 1) ++ ((2 ^ 32 - 1) :: (2 ^ 32 : Nat) ::
          List.range' (2 ^ 32 + 1) 63) := by rw [Nat.zero_add, h1]
  rw [hsplit]
  intro hch
  simp only [List.map_append, List.map_cons] at hch
  have hmid := hch.right_of_append
  rw [List.chain'_cons] at hmid
  have hlt := hmid.1
  rw [Nat.mod_self, Nat.mod_eq_of_lt (by omega)] at hlt
  omega

set_option maxRecDepth 100000 in
/-- C6 fails as stated for inputs longer than `2^32` bytes: on the all-comma
input of length `2^32 + 64` the byte at offset `2^32` is a comma, yet the
offset `2^32` never appears in the emitted positions (its `uint32_t` store
wraps to `0`), so the emitted set is not the set of `{ } [ ] : ,` offsets. -/
theorem claims_C6_counterexample :
    (2 ^ 32 : Nat) ∉
      (neon_json_find_structural false false false false
        (List.replicate (2 ^ 32 + 64) 44) (2 ^ 32 + 64)).2.1 ∧
    isSix ((List.replicate (2 ^ 32 + 64) 44 : List Nat).getD (2 ^ 32) 0) =
      true ∧
    (2 ^ 32 : Nat) < (List.replicate (2 ^ 32 + 64) 44 : List Nat).length := by
  refine ⟨?_, ?_, by rw [List.length_replicate]; omega⟩
  · rw [replicate_comma_positions]
    intro hmem
    obtain ⟨p, hp, hpe⟩ := List.mem_map.mp hmem
    have hmod : p % 2 ^ 32 < 2 ^ 32 := Nat.mod_lt p (by omega)
    omega
  · rw [replicate_getD _ _ _ (by omega)]
    decide
